import Mathlib

/-!
Verification development for the one-period risky-asset consumption solvers
of HARK/ConsumptionSaving/ConsRiskyAssetModel.py (ConsRiskySolver and
ConsBasicPortfolioSolver). Numeric quantities are embedded as rationals;
the CRRA power transforms, which are irrational-valued, are carried as
abstract function parameters where the statements do not depend on their
specific values.
-/

namespace HARKRisky

/-! ## Discrete distributions and the expectation engine -/

/-- Modelled from the spec: the expectation operator of HARK.distribution
(calc_expectation), which is outside the sources. It evaluates a function at
every outcome of a finite discrete distribution, given by the outcome list X
and the probability list pmf, and returns the probability-weighted sum. -/
def expectG {α : Type} (X : List α) (pmf : List ℚ) (f : α → ℚ) : ℚ :=
  (List.zipWith (fun x p => p * f x) X pmf).sum

/-- Modelled from the spec: the outcome list of the outer product of two
discrete distributions, as built by combine_indep_dstns of
HARK.distribution, which is outside the sources. -/
def prodX {α β : Type} (X1 : List α) (X2 : List β) : List (α × β) :=
  X1.flatMap (fun a => X2.map (fun b => (a, b)))

/-- Modelled from the spec: the probability list of the outer product of two
discrete distributions, the product of the marginal probabilities. -/
def prodP (p1 p2 : List ℚ) : List ℚ :=
  p1.flatMap (fun a => p2.map (fun b => a * b))

theorem expectG_cons {α : Type} (x : α) (xs : List α) (q : ℚ) (qs : List ℚ)
    (f : α → ℚ) : expectG (x :: xs) (q :: qs) f = q * f x + expectG xs qs f := rfl

theorem expectG_nil_left {α : Type} (p : List ℚ) (f : α → ℚ) :
    expectG [] p f = 0 := rfl

theorem expectG_nil_right {α : Type} (X : List α) (f : α → ℚ) :
    expectG X [] f = 0 := by cases X <;> rfl

theorem expect_zero {α : Type} (X : List α) (p : List ℚ) :
    expectG X p (fun _ => 0) = 0 := by
  induction X generalizing p with
  | nil => rfl
  | cons x xs ih =>
    cases p with
    | nil => rfl
    | cons q qs => rw [expectG_cons, ih qs]; ring

theorem expect_add {α : Type} (X : List α) (p : List ℚ) (f g : α → ℚ) :
    expectG X p (fun x => f x + g x) = expectG X p f + expectG X p g := by
  induction X generalizing p with
  | nil => simp [expectG_nil_left]
  | cons x xs ih =>
    cases p with
    | nil => simp [expectG_nil_right]
    | cons q qs => rw [expectG_cons, expectG_cons, expectG_cons, ih qs]; ring

theorem expect_const_mul {α : Type} (X : List α) (p : List ℚ) (c : ℚ)
    (f : α → ℚ) : expectG X p (fun x => c * f x) = c * expectG X p f := by
  induction X generalizing p with
  | nil => simp [expectG_nil_left]
  | cons x xs ih =>
    cases p with
    | nil => simp [expectG_nil_right]
    | cons q qs => rw [expectG_cons, expectG_cons, ih qs]; ring

theorem expect_congr {α : Type} (X : List α) (p : List ℚ) (f g : α → ℚ)
    (h : ∀ x ∈ X, f x = g x) : expectG X p f = expectG X p g := by
  induction X generalizing p with
  | nil => rfl
  | cons x xs ih =>
    cases p with
    | nil => rw [expectG_nil_right, expectG_nil_right]
    | cons q qs =>
      rw [expectG_cons, expectG_cons, h x (List.mem_cons_self x xs),
        ih qs (fun y hy => h y (List.mem_cons_of_mem x hy))]

theorem expect_swap {α β : Type} (X : List α) (p : List ℚ) (Y : List β)
    (q : List ℚ) (f : α → β → ℚ) :
    expectG X p (fun x => expectG Y q (fun y => f x y)) =
      expectG Y q (fun y => expectG X p (fun x => f x y)) := by
  induction X generalizing p with
  | nil =>
    rw [expectG_nil_left,
      expect_congr Y q _ (fun _ => 0) (fun y _ => expectG_nil_left p _),
      expect_zero]
  | cons x xs ih =>
    cases p with
    | nil =>
      rw [expectG_nil_right,
        expect_congr Y q _ (fun _ => 0) (fun y _ => expectG_nil_right (x :: xs) _),
        expect_zero]
    | cons q0 qs =>
      rw [expectG_cons, ih qs,
        expect_congr Y q (fun y => expectG (x :: xs) (q0 :: qs) fun a => f a y)
          (fun y => q0 * f x y + expectG xs qs fun a => f a y)
          (fun y _ => expectG_cons x xs q0 qs fun a => f a y),
        expect_add, expect_const_mul]

theorem expectG_append {α : Type} (l1 l2 : List α) (m1 m2 : List ℚ)
    (h : l1.length = m1.length) (f : α → ℚ) :
    expectG (l1 ++ l2) (m1 ++ m2) f = expectG l1 m1 f + expectG l2 m2 f := by
  unfold expectG
  rw [List.zipWith_append _ _ _ _ _ h, List.sum_append]

theorem expectG_map_block {α β : Type} (a : α) (q : ℚ) (X2 : List β)
    (p2 : List ℚ) (f : α × β → ℚ) :
    expectG (X2.map (fun b => (a, b))) (p2.map (fun c => q * c)) f =
      q * expectG X2 p2 (fun b => f (a, b)) := by
  induction X2 generalizing p2 with
  | nil => simp [expectG_nil_left]
  | cons b bs ih =>
    cases p2 with
    | nil => simp [expectG_nil_right]
    | cons c cs =>
      simp only [List.map_cons]
      rw [expectG_cons, expectG_cons, ih cs]
      ring

/-- Fubini for finite outer products: the expectation over the combined
independent distribution equals the iterated expectation over the marginals.
Only the inner lists need matching lengths; the zip in expectG truncates the
outer pair consistently. -/
theorem expect_prod {α β : Type} (X1 : List α) (p1 : List ℚ) (X2 : List β)
    (p2 : List ℚ) (h2 : X2.length = p2.length) (f : α × β → ℚ) :
    expectG (prodX X1 X2) (prodP p1 p2) f =
      expectG X1 p1 (fun a => expectG X2 p2 (fun b => f (a, b))) := by
  induction X1 generalizing p1 with
  | nil => simp [prodX, expectG_nil_left]
  | cons a as ih =>
    cases p1 with
    | nil => simp [prodP, expectG_nil_right]
    | cons q qs =>
      have hx : prodX (a :: as) X2 =
          X2.map (fun b => (a, b)) ++ prodX as X2 := by
        simp [prodX]
      have hp : prodP (q :: qs) p2 =
          p2.map (fun c => q * c) ++ prodP qs p2 := by
        simp [prodP]
      have hlen : (X2.map (fun b => (a, b))).length =
          (p2.map (fun c => q * c)).length := by
        simp [h2]
      rw [hx, hp, expectG_append _ _ _ _ hlen, expectG_map_block, ih qs,
        expectG_cons]

/-! ## List minima and maxima (np.ndarray.min / max over a support list) -/

/-- Smallest element of a list of rationals, as X.min() on a numpy support
array; 0 on the empty list, which never arises for a distribution. -/
def listMin : List ℚ → ℚ
  | [] => 0
  | [x] => x
  | x :: y :: rest => min x (listMin (y :: rest))

/-- Largest element of a list of rationals, as X.max() on a numpy support
array; 0 on the empty list, which never arises for a distribution. -/
def listMax : List ℚ → ℚ
  | [] => 0
  | [x] => x
  | x :: y :: rest => max x (listMax (y :: rest))

theorem listMin_mem : ∀ (l : List ℚ), l ≠ [] → listMin l ∈ l
  | [], h => absurd rfl h
  | [x], _ => by simp [listMin]
  | x :: y :: rest, _ => by
    rcases min_choice x (listMin (y :: rest)) with h | h
    · simp [listMin, h]
    · have := listMin_mem (y :: rest) (by simp)
      rw [listMin, h]
      exact List.mem_cons_of_mem x this

theorem listMin_le : ∀ (l : List ℚ), ∀ x ∈ l, listMin l ≤ x
  | [], x, hx => absurd hx (by simp)
  | [a], x, hx => by
    rw [List.mem_singleton] at hx
    simp [listMin, hx]
  | a :: b :: rest, x, hx => by
    rw [listMin]
    rcases List.mem_cons.mp hx with h | h
    · exact h ▸ min_le_left _ _
    · exact le_trans (min_le_right _ _) (listMin_le (b :: rest) x h)

theorem listMax_mem : ∀ (l : List ℚ), l ≠ [] → listMax l ∈ l
  | [], h => absurd rfl h
  | [x], _ => by simp [listMax]
  | x :: y :: rest, _ => by
    rcases max_choice x (listMax (y :: rest)) with h | h
    · simp [listMax, h]
    · have := listMax_mem (y :: rest) (by simp)
      rw [listMax, h]
      exact List.mem_cons_of_mem x this

theorem le_listMax : ∀ (l : List ℚ), ∀ x ∈ l, x ≤ listMax l
  | [], x, hx => absurd hx (by simp)
  | [a], x, hx => by
    rw [List.mem_singleton] at hx
    simp [listMax, hx]
  | a :: b :: rest, x, hx => by
    rw [listMax]
    rcases List.mem_cons.mp hx with h | h
    · exact h ▸ le_max_left _ _
    · exact le_trans (le_listMax (b :: rest) x h) (le_max_right _ _)

/-! ## Linear interpolation -/

/-- Value at x of the line through the points (x0, y0) and (x1, y1). -/
def linSeg (x0 y0 x1 y1 x : ℚ) : ℚ := y0 + (y1 - y0) / (x1 - x0) * (x - x0)

/-- Modelled from the spec: piecewise-linear interpolation through a list of
nodes, extended linearly beyond the ends by the first and last segments,
standing in for the LinearInterp primitive of HARK.interpolation, which is
outside the sources. -/
def linInterp : List (ℚ × ℚ) → ℚ → ℚ
  | [], _ => 0
  | [p], _ => p.2
  | p :: q :: rest, x =>
    if x ≤ q.1 then linSeg p.1 p.2 q.1 q.2 x else linInterp (q :: rest) x

theorem linSeg_left (x0 y0 x1 y1 : ℚ) : linSeg x0 y0 x1 y1 x0 = y0 := by
  simp [linSeg]

theorem linSeg_right {x0 x1 : ℚ} (y0 y1 : ℚ) (h : x0 < x1) :
    linSeg x0 y0 x1 y1 x1 = y1 := by
  have hne : x1 - x0 ≠ 0 := sub_ne_zero.mpr (ne_of_gt h)
  unfold linSeg
  rw [div_mul_cancel₀ _ hne]
  ring

theorem linSeg_mono {x0 y0 x1 y1 : ℚ} (hx : x0 < x1) (hy : y0 ≤ y1)
    {u v : ℚ} (huv : u ≤ v) :
    linSeg x0 y0 x1 y1 u ≤ linSeg x0 y0 x1 y1 v := by
  unfold linSeg
  have hs : 0 ≤ (y1 - y0) / (x1 - x0) :=
    div_nonneg (by linarith) (by linarith)
  have := mul_le_mul_of_nonneg_left (by linarith : u - x0 ≤ v - x0) hs
  linarith

theorem chain'_fst_lt_of_mem {b : ℚ × ℚ} {rest : List (ℚ × ℚ)}
    (hc : List.Chain' (fun u v : ℚ × ℚ => u.1 < v.1) (b :: rest)) :
    ∀ p ∈ rest, b.1 < p.1 := by
  induction rest generalizing b with
  | nil => intro p hp; cases hp
  | cons c cs ih =>
    intro p hp
    have hbc := (List.chain'_cons.mp hc).1
    have hrest := (List.chain'_cons.mp hc).2
    rcases List.mem_cons.mp hp with h | h
    · exact h ▸ hbc
    · exact lt_trans hbc (ih hrest p h)

theorem linInterp_head (p : ℚ × ℚ) (rest : List (ℚ × ℚ))
    (hc : List.Chain' (fun u v : ℚ × ℚ => u.1 < v.1) (p :: rest)) :
    linInterp (p :: rest) p.1 = p.2 := by
  cases rest with
  | nil => rfl
  | cons q rest2 =>
    have hpq : p.1 < q.1 := (List.chain'_cons.mp hc).1
    rw [linInterp, if_pos (le_of_lt hpq), linSeg_left]

theorem linInterp_node (ps : List (ℚ × ℚ))
    (hc : List.Chain' (fun u v : ℚ × ℚ => u.1 < v.1) ps) :
    ∀ p ∈ ps, linInterp ps p.1 = p.2 := by
  induction ps with
  | nil => intro p hp; cases hp
  | cons a rest ih =>
    intro p hp
    rcases List.mem_cons.mp hp with h | hmem
    · exact h ▸ linInterp_head a rest hc
    cases rest with
    | nil => cases hmem
    | cons b rest2 =>
      have hab : a.1 < b.1 := (List.chain'_cons.mp hc).1
      have hc2 := (List.chain'_cons.mp hc).2
      by_cases hle : p.1 ≤ b.1
      · rcases List.mem_cons.mp hmem with h | h
        · subst h
          rw [linInterp, if_pos hle, linSeg_right _ _ hab]
        · exact absurd hle (not_le.mpr (chain'_fst_lt_of_mem hc2 p h))
      · rw [linInterp, if_neg hle]
        exact ih hc2 p hmem

theorem linInterp_mono (ps : List (ℚ × ℚ))
    (hx : List.Chain' (fun u v : ℚ × ℚ => u.1 < v.1) ps)
    (hy : List.Chain' (fun u v : ℚ × ℚ => u.2 ≤ v.2) ps) :
    ∀ u v : ℚ, u ≤ v → linInterp ps u ≤ linInterp ps v := by
  induction ps with
  | nil => intro u v _; exact le_refl 0
  | cons a rest ih =>
    intro u v huv
    cases rest with
    | nil => exact le_refl a.2
    | cons b rest2 =>
      have hab : a.1 < b.1 := (List.chain'_cons.mp hx).1
      have hyab : a.2 ≤ b.2 := (List.chain'_cons.mp hy).1
      have hx2 := (List.chain'_cons.mp hx).2
      have hy2 := (List.chain'_cons.mp hy).2
      by_cases hv : v ≤ b.1
      · have hu : u ≤ b.1 := le_trans huv hv
        rw [linInterp, linInterp, if_pos hv, if_pos hu]
        exact linSeg_mono hab hyab huv
      · rw [linInterp, linInterp, if_neg hv]
        by_cases hu : u ≤ b.1
        · rw [if_pos hu]
          have h1 : linSeg a.1 a.2 b.1 b.2 u ≤ linSeg a.1 a.2 b.1 b.2 b.1 :=
            linSeg_mono hab hyab hu
          rw [linSeg_right _ _ hab] at h1
          have h2 : linInterp (b :: rest2) b.1 ≤ linInterp (b :: rest2) v :=
            ih hx2 hy2 b.1 v (le_of_not_le hv)
          rw [linInterp_head b rest2 hx2] at h2
          exact le_trans h1 h2
        · rw [if_neg hu]
          exact ih hx2 hy2 u v huv

/-! ## ConsRiskySolver: construction checks and the borrowing constraint -/

/-- Success or failure of a construction-time check, mirroring whether a
Python constructor raises. -/
def exceptOk {ε α : Type} : Except ε α → Bool
  | Except.ok _ => true
  | Except.error _ => false

/-- Construction-time checks of ConsRiskySolver, from its post-init hook: a
nonzero artificial borrowing constraint raises ValueError, then a cubic
interpolation request raises NotImplementedError; otherwise construction
succeeds. -/
def postInitChecks (boroCnstArt : ℚ) (cubicBool : Bool) : Except String Unit :=
  if boroCnstArt ≠ 0 then
    Except.error "RiskyAssetConsumerType must have BoroCnstArt=0.0"
  else if cubicBool then
    Except.error "RiskyAssetConsumerType does not implement cubic interpolation yet"
  else Except.ok ()

/-- Output record of ConsRiskySolver.def_BoroCnst. -/
structure BoroCnstOut where
  BoroCnstNat : ℚ
  zeroBound : Bool
  mNrmMinNow : ℚ
  MPCmaxEff : ℚ
deriving DecidableEq

/-- Borrowing-constraint stage of ConsRiskySolver.def_BoroCnst: the natural
constraint from the worst case (next-period minimum cash net of the smallest
transitory shock, scaled by the growth-adjusted smallest permanent shock and
divided by the largest risky return), the zero-bound flag, the binding
minimum feasible cash, and the effective maximum MPC. BoroCnstArt is an
optional value as in the Python code, where it may be None. -/
def def_BoroCnst (mNrmMinNext : ℚ) (tranX permX riskyX : List ℚ)
    (PermGroFac : ℚ) (BoroCnstArt : Option ℚ) (MPCmaxNow : ℚ) : BoroCnstOut :=
  let bNat :=
    (mNrmMinNext - listMin tranX) * (PermGroFac * listMin permX) / listMax riskyX
  let zb :=
    match BoroCnstArt with
    | none => false
    | some b => bNat == b
  let mMin :=
    match BoroCnstArt with
    | none => bNat
    | some b => max bNat b
  let mpc := if bNat < mMin then 1 else MPCmaxNow
  ⟨bNat, zb, mMin, mpc⟩

/-- The natural borrowing constraint worded as the claim reads it, dividing
by the minimum of the risky-return support rather than its maximum; kept for
comparison with def_BoroCnst. -/
def BoroCnstNat_claim (mNrmMinNext : ℚ) (tranX permX riskyX : List ℚ)
    (PermGroFac : ℚ) : ℚ :=
  (mNrmMinNext - listMin tranX) * (PermGroFac * listMin permX) / listMin riskyX

/-! ## ConsRiskySolver: end-of-period marginal value, both expectation paths

The stages of the independent factorization in calc_EndOfPrdvP are wrapped in
the code by calc_ExpMargValueFunc, which pushes the stage expectation through
the inverse marginal utility, a LinearInterp, and a MargValueFuncCRRA; those
primitives live in HARK.interpolation, outside the sources, and at its grid
nodes the wrapper recovers the stage expectation exactly. The stages are
modelled from the spec as the exact conditional expectations. The CRRA power
of the permanent shock is carried as an abstract function pw standing for the
map x to x to the power minus CRRA, and vPnext is the next-period marginal
value function. -/

/-- Stage one of the factorized path in ConsRiskySolver.calc_EndOfPrdvP:
expectation of next-period marginal value over the transitory shock as a
function of post-permanent-shock cash. -/
def preTranShkvP (vPnext : ℚ → ℚ) (tranX tranP : List ℚ) (w : ℚ) : ℚ :=
  expectG tranX tranP (fun θ => vPnext (w + θ))

/-- Stage two of the factorized path in ConsRiskySolver.calc_EndOfPrdvP:
expectation over the permanent shock as a function of post-return cash. -/
def prePermShkvP (pw vPnext : ℚ → ℚ) (Γ : ℚ) (permX permP tranX tranP : List ℚ)
    (b : ℚ) : ℚ :=
  expectG permX permP
    (fun ψ => pw (ψ * Γ) * preTranShkvP vPnext tranX tranP (b / (ψ * Γ)))

/-- Stage three of the factorized path in ConsRiskySolver.calc_EndOfPrdvP:
expectation over the risky return, discounted by the effective discount
factor D, as a function of end-of-period assets. -/
def calcEndOfPrdvP_indep (pw vPnext : ℚ → ℚ) (D Γ : ℚ)
    (permX permP tranX tranP riskyX riskyP : List ℚ) (a : ℚ) : ℚ :=
  expectG riskyX riskyP
    (fun r => D * r * prePermShkvP pw vPnext Γ permX permP tranX tranP (a * r))

/-- Integrand vP_next of the joint fallback path in
ConsRiskySolver.calc_EndOfPrdvP, on a shock triple of permanent shock,
transitory shock and risky return. -/
def vP_next (pw vPnext : ℚ → ℚ) (D Γ : ℚ) (s : (ℚ × ℚ) × ℚ) (a : ℚ) : ℚ :=
  D * s.2 * pw (s.1.1 * Γ) * vPnext (a * s.2 / (s.1.1 * Γ) + s.1.2)

/-- Joint fallback path of ConsRiskySolver.calc_EndOfPrdvP: a single
expectation over the combined shock distribution, the outer product of the
income-shock pair distribution and the risky-return distribution as built by
update_ShockDstn. -/
def calcEndOfPrdvP_joint (pw vPnext : ℚ → ℚ) (D Γ : ℚ)
    (permX permP tranX tranP riskyX riskyP : List ℚ) (a : ℚ) : ℚ :=
  expectG (prodX (prodX permX tranX) riskyX) (prodP (prodP permP tranP) riskyP)
    (fun s => vP_next pw vPnext D Γ s a)

/-- ConsRiskySolver.calc_EndOfPrdvP: the factorized path when the shocks are
flagged independent, the joint-expectation fallback otherwise. -/
def riskyCalcEndOfPrdvP (indep : Bool) (pw vPnext : ℚ → ℚ) (D Γ : ℚ)
    (permX permP tranX tranP riskyX riskyP : List ℚ) (a : ℚ) : ℚ :=
  if indep then
    calcEndOfPrdvP_indep pw vPnext D Γ permX permP tranX tranP riskyX riskyP a
  else
    calcEndOfPrdvP_joint pw vPnext D Γ permX permP tranX tranP riskyX riskyP a

/-! ## ConsBasicPortfolioSolver: the share search -/

/-- Evenly spaced share grid from ShareLimit to 1 with n points, as
np.linspace in RiskyAssetConsumerType.update_ShareGrid. -/
def shareGridOf (shareLimit : ℚ) (n : ℕ) : List ℚ :=
  (List.range n).map (fun i => shareLimit + (1 - shareLimit) * i / ((n : ℚ) - 1))

/-- First index holding true in a Boolean list, 0 when there is none, as
np.argmax on a Boolean array along the share axis. -/
def argmaxBool (bs : List Bool) : ℕ := (bs.findIdx? (fun b => b)).getD 0

/-- Adjacent-pair crossing indicators for one asset level: entry j is true
when the share FOC is nonnegative at grid share j and nonpositive at grid
share j plus one, as the crossing array in
ConsBasicPortfolioSolver.calc_EndOfPrdvP. -/
def crossings (row : List ℚ) : List Bool :=
  List.zipWith (fun fj fj1 => decide (0 ≤ fj) && decide (fj1 ≤ 0)) row row.tail

/-- Share search for one asset level: bracket the first sign change of the
FOC on the share grid, interpolate the crossing point linearly in the FOC
values, then clip to 1 where the FOC is still positive at the top share and
to 0 where it is still negative at the bottom share, exactly as in
ConsBasicPortfolioSolver.calc_EndOfPrdvP. -/
def clipShareRow (shareGrid row : List ℚ) : ℚ :=
  let j := argmaxBool (crossings row)
  let botS := shareGrid.getD j 0
  let topS := shareGrid.getD (j + 1) 0
  let botF := row.getD j 0
  let topF := row.getD (j + 1) 0
  let alpha := 1 - topF / (topF - botF)
  let s := (1 - alpha) * botS + alpha * topS
  let s1 := if 0 < row.getLastD 0 then 1 else s
  if row.headD 0 < 0 then 0 else s1

/-- Optimal share at every asset level of the FOC table, including the
convention of ConsBasicPortfolioSolver.calc_EndOfPrdvP that when the zero
bound flag is false the share at the lowest asset point is overwritten
with 1. -/
def calcOptShare (zeroBound : Bool) (shareGrid : List ℚ)
    (foc : List (List ℚ)) : List ℚ :=
  let s := foc.map (clipShareRow shareGrid)
  if zeroBound then s else s.set 0 1

/-- ConsBasicPortfolioSolver.calc_EndOfPrdvP: present only for the
independent-distributions branch; the method body has no else branch, so a
false IndepDstnBool yields no end-of-period marginal value at all. The
prePermShkvPfunc stages are shared with riskyCalcEndOfPrdvP and modelled the
same way. -/
def portfolioCalcEndOfPrdvP (indep zeroBound : Bool) (pw vPnext : ℚ → ℚ)
    (D Γ Rfree : ℚ) (permX permP tranX tranP riskyX riskyP : List ℚ)
    (aNrm shareGrid : List ℚ) : Option (List ℚ) :=
  if indep then
    let prePerm := prePermShkvP pw vPnext Γ permX permP tranX tranP
    let foc := aNrm.map (fun a => shareGrid.map (fun s =>
      expectG riskyX riskyP
        (fun r => a * (r - Rfree) * prePerm (a * (Rfree + (r - Rfree) * s)))))
    let opt := calcOptShare zeroBound shareGrid foc
    some (List.zipWith (fun a s =>
      D * expectG riskyX riskyP (fun r =>
        (Rfree + (r - Rfree) * s) * prePerm (a * (Rfree + (r - Rfree) * s))))
      aNrm opt)
  else none

/-! ## The period consumption function assembled from the EGM step -/

/-- Endogenous cash-on-hand grid of the EGM step: mNrm equals aNrm plus cNrm
pointwise, the budget identity. The inversion of marginal utility producing
cNrm happens in ConsIndShockSolver, outside the sources, so cNrm enters here
as a list. -/
def mNrmGrid (aNrm cNrm : List ℚ) : List ℚ := List.zipWith (· + ·) aNrm cNrm

/-- Modelled from the spec: the period consumption function returned by the
one-period solve, assembled in ConsIndShockSolver, which is outside the
sources. The unconstrained consumption function interpolates the endogenous
grid of cash-and-consumption pairs anchored at the boundary point where
consumption reaches zero at the minimum feasible cash level, and the
returned function is the binding, that is the pointwise minimum, of it and
the borrowing-constrained line of unit slope through that boundary point,
the line built in def_BoroCnst. -/
def cFuncNow (mNrmMin : ℚ) (aNrm cNrm : List ℚ) (m : ℚ) : ℚ :=
  min (linInterp ((mNrmMin, 0) :: (mNrmGrid aNrm cNrm).zip cNrm) m) (m - mNrmMin)

/-! ## Supporting lemmas for the share search and the borrowing constraint -/

theorem exists_crossing : ∀ (row : List ℚ), 2 ≤ row.length →
    0 ≤ row.headD 0 → row.getLastD 0 ≤ 0 →
    ∃ j, j < row.length - 1 ∧ 0 ≤ row.getD j 0 ∧ row.getD (j + 1) 0 ≤ 0
  | [], h, _, _ => absurd h (by simp)
  | [_], h, _, _ => absurd h (by simp)
  | a :: b :: rest, _, h0, hl => by
    by_cases hb : b ≤ 0
    · refine ⟨0, by simp, ?_, ?_⟩
      · simpa using h0
      · simpa using hb
    · push_neg at hb
      have hlast : (b :: rest).getLastD 0 ≤ 0 := hl
      have hlen2 : 2 ≤ (b :: rest).length := by
        cases rest with
        | nil => exact absurd hlast (not_le.mpr hb)
        | cons c cs => simp
      obtain ⟨j, hj, hc1, hc2⟩ :=
        exists_crossing (b :: rest) hlen2 (le_of_lt hb) hlast
      refine ⟨j + 1, ?_, ?_, ?_⟩
      · simp only [List.length_cons] at hj ⊢
        omega
      · simpa using hc1
      · simpa using hc2

theorem ite_eq_one_iff (c : Prop) [Decidable c] (v : ℚ) (hv : v ≠ 1) :
    (if c then (1 : ℚ) else v) = 1 ↔ c := by
  by_cases h : c <;> simp [h, hv]

/-! ## The claims -/

/-- C1 counterexample: with share grid floor ShareLimit equal to one half
and an FOC strictly negative at every grid share, the per-asset share search
clips the optimal share to 0 and not to the grid floor, refuting the claim
that the bottom clip target is the ShareGrid floor ShareLimit. -/
theorem clipShareRow_grid_floor_counterexample :
    (shareGridOf (1 / 2) 3).headD 0 = 1 / 2 ∧
      clipShareRow (shareGridOf (1 / 2) 3) [-1, -1, -1] = 0 ∧
      clipShareRow (shareGridOf (1 / 2) 3) [-1, -1, -1] ≠
        (shareGridOf (1 / 2) 3).headD 0 := by
  have hg : shareGridOf (1 / 2) 3 = [1 / 2, 3 / 4, 1] := by
    rw [shareGridOf, show List.range 3 = [0, 1, 2] from rfl]
    norm_num
  have hval : clipShareRow (shareGridOf (1 / 2) 3) [-1, -1, -1] = 0 := by
    simp only [clipShareRow]
    rw [if_pos (by norm_num : ([-1, -1, -1] : List ℚ).headD 0 < 0)]
  refine ⟨by rw [hg]; norm_num, hval, by rw [hval, hg]; norm_num⟩

/-- C1 amended: in the per-asset share search of
ConsBasicPortfolioSolver.calc_EndOfPrdvP, an FOC strictly negative at the
bottom grid share clips the optimal share to 0, not to the share grid floor;
an FOC strictly positive at the top grid share, with the bottom one not
strictly negative, clips it to 1. -/
theorem clipShareRow_boundary (shareGrid row : List ℚ) :
    (row.headD 0 < 0 → clipShareRow shareGrid row = 0) ∧
      (¬row.headD 0 < 0 → 0 < row.getLastD 0 →
        clipShareRow shareGrid row = 1) := by
  refine ⟨fun h => ?_, fun h1 h2 => ?_⟩
  · simp only [clipShareRow]
    rw [if_pos h]
  · simp only [clipShareRow]
    rw [if_neg h1, if_pos h2]

/-- C1 witness: the two clipping branches at concrete FOC rows. -/
theorem clipShareRow_boundary_w :
    (([-1, -1] : List ℚ).headD 0 < 0 ∧ clipShareRow [0, 1] [-1, -1] = 0) ∧
      (0 < ([2, 1] : List ℚ).getLastD 0 ∧ clipShareRow [0, 1] [2, 1] = 1) :=
  ⟨⟨by decide, (clipShareRow_boundary [0, 1] [-1, -1]).1 (by decide)⟩,
    ⟨by decide, (clipShareRow_boundary [0, 1] [2, 1]).2 (by decide) (by decide)⟩⟩

/-- C2 counterexample: at a risky-return support with distinct minimum and
maximum, the natural borrowing constraint as the claim words it, divided by
the minimum risky return, differs from the one def_BoroCnst computes, which
divides by the maximum risky return. -/
theorem def_BoroCnst_min_return_counterexample :
    BoroCnstNat_claim 0 [1] [1] [1, 2] 1 ≠
      (def_BoroCnst 0 [1] [1] [1, 2] 1 (some 0) 1).BoroCnstNat := by
  have h1 : BoroCnstNat_claim 0 [1] [1] [1, 2] 1 = -1 := by
    simp only [BoroCnstNat_claim, listMin, listMax]
    norm_num [min_def]
  have h2 : (def_BoroCnst 0 [1] [1] [1, 2] 1 (some 0) 1).BoroCnstNat = -(1 / 2) := by
    simp only [def_BoroCnst, listMin, listMax]
    norm_num [min_def, max_def]
  rw [h1, h2]
  norm_num

/-- C2 amended: def_BoroCnst computes the natural borrowing constraint from
the worst case, with the minimum transitory shock, the minimum permanent
shock, and the maximum of the risky-return support in the denominator, and
the minimum feasible cash is the binding, larger, of the natural and the
artificial constraints. -/
theorem def_BoroCnst_worst_case (mNrmMinNext : ℚ) (tranX permX riskyX : List ℚ)
    (PermGroFac bArt MPCmaxNow : ℚ) (ht : tranX ≠ []) (hp : permX ≠ [])
    (hr : riskyX ≠ []) :
    ∃ t ∈ tranX, ∃ p ∈ permX, ∃ rk ∈ riskyX,
      (∀ x ∈ tranX, t ≤ x) ∧ (∀ x ∈ permX, p ≤ x) ∧ (∀ x ∈ riskyX, x ≤ rk) ∧
      (def_BoroCnst mNrmMinNext tranX permX riskyX PermGroFac (some bArt)
          MPCmaxNow).BoroCnstNat = (mNrmMinNext - t) * (PermGroFac * p) / rk ∧
      (def_BoroCnst mNrmMinNext tranX permX riskyX PermGroFac (some bArt)
          MPCmaxNow).mNrmMinNow =
        max (def_BoroCnst mNrmMinNext tranX permX riskyX PermGroFac (some bArt)
          MPCmaxNow).BoroCnstNat bArt ∧
      (def_BoroCnst mNrmMinNext tranX permX riskyX PermGroFac (some bArt)
          MPCmaxNow).BoroCnstNat ≤
        (def_BoroCnst mNrmMinNext tranX permX riskyX PermGroFac (some bArt)
          MPCmaxNow).mNrmMinNow ∧
      bArt ≤ (def_BoroCnst mNrmMinNext tranX permX riskyX PermGroFac (some bArt)
          MPCmaxNow).mNrmMinNow :=
  ⟨listMin tranX, listMin_mem tranX ht, listMin permX, listMin_mem permX hp,
    listMax riskyX, listMax_mem riskyX hr, listMin_le tranX, listMin_le permX,
    le_listMax riskyX, rfl, rfl, le_max_left _ _, le_max_right _ _⟩

/-- C2 witness: the worst-case characterization at a concrete input. -/
theorem def_BoroCnst_worst_case_w :
    (([1] : List ℚ) ≠ []) ∧
      (∃ t ∈ ([1] : List ℚ), ∃ p ∈ ([1] : List ℚ), ∃ rk ∈ ([1, 2] : List ℚ),
        (∀ x ∈ ([1] : List ℚ), t ≤ x) ∧ (∀ x ∈ ([1] : List ℚ), p ≤ x) ∧
        (∀ x ∈ ([1, 2] : List ℚ), x ≤ rk) ∧
        (def_BoroCnst 0 [1] [1] [1, 2] 1 (some 0) 1).BoroCnstNat =
          (0 - t) * (1 * p) / rk ∧
        (def_BoroCnst 0 [1] [1] [1, 2] 1 (some 0) 1).mNrmMinNow =
          max (def_BoroCnst 0 [1] [1] [1, 2] 1 (some 0) 1).BoroCnstNat 0 ∧
        (def_BoroCnst 0 [1] [1] [1, 2] 1 (some 0) 1).BoroCnstNat ≤
          (def_BoroCnst 0 [1] [1] [1, 2] 1 (some 0) 1).mNrmMinNow ∧
        (0 : ℚ) ≤ (def_BoroCnst 0 [1] [1] [1, 2] 1 (some 0) 1).mNrmMinNow) :=
  ⟨by decide,
    def_BoroCnst_worst_case 0 [1] [1] [1, 2] 1 0 1 (by decide) (by decide)
      (by decide)⟩

/-- C6: the per-asset share search terminates with a well-defined share and
never raises: when no nonnegative-to-nonpositive crossing exists between
adjacent grid shares, the result is dictated by the clipping policy alone,
0 when the FOC is strictly negative at the bottom share and 1 otherwise. -/
theorem clipShareRow_degenerate (shareGrid row : List ℚ)
    (hlen : 2 ≤ row.length)
    (hnc : ∀ j < row.length - 1,
      ¬(0 ≤ row.getD j 0 ∧ row.getD (j + 1) 0 ≤ 0)) :
    clipShareRow shareGrid row = if row.headD 0 < 0 then 0 else 1 := by
  by_cases hh : row.headD 0 < 0
  · rw [if_pos hh]
    simp only [clipShareRow]
    rw [if_pos hh]
  · rw [if_neg hh]
    have hlast : 0 < row.getLastD 0 := by
      by_contra hle
      push_neg at hle
      obtain ⟨j, hj, hcross⟩ := exists_crossing row hlen (not_lt.mp hh) hle
      exact hnc j hj hcross
    simp only [clipShareRow]
    rw [if_neg hh, if_pos hlast]

/-- C6 witness: an always-positive FOC row clips to 1 without error. -/
theorem clipShareRow_degenerate_w :
    2 ≤ ([1, 1] : List ℚ).length ∧
      clipShareRow [0, 1] [1, 1] =
        if ([1, 1] : List ℚ).headD 0 < 0 then 0 else 1 :=
  ⟨by decide, clipShareRow_degenerate [0, 1] [1, 1] (by decide) (by decide)⟩

/-- C7: when the zero-bound flag is false, the optimal share at the lowest
asset grid point is forced to exactly 1, overriding whatever the search and
clipping produced there. -/
theorem calcOptShare_lowest_forced (shareGrid : List ℚ)
    (foc : List (List ℚ)) (h : foc ≠ []) :
    (calcOptShare false shareGrid foc).headD 0 = 1 := by
  unfold calcOptShare
  cases foc with
  | nil => exact absurd rfl h
  | cons r rs => rfl

/-- C7 witness: the forced lowest-point share at a concrete FOC table whose
own search result would be 0. -/
theorem calcOptShare_lowest_forced_w :
    ([[(-1 : ℚ), 1]] : List (List ℚ)) ≠ [] ∧
      (calcOptShare false [0, 1] [[-1, 1]]).headD 0 = 1 :=
  ⟨by decide, calcOptShare_lowest_forced [0, 1] [[-1, 1]] (by decide)⟩

/-- C8: solver construction fails, with an error raised before any solving,
exactly when the artificial borrowing constraint is nonzero or cubic
interpolation is requested; for all other inputs construction raises
neither error. -/
theorem post_init_fails_iff (b : ℚ) (c : Bool) :
    exceptOk (postInitChecks b c) = true ↔ (b = 0 ∧ c = false) := by
  unfold postInitChecks
  by_cases hb : b = 0
  · subst hb
    cases c <;> simp [exceptOk]
  · simp [hb, exceptOk]

/-- C9: the joint-expectation fallback exists in ConsRiskySolver, whose
calc_EndOfPrdvP with the independence flag false computes the joint path,
but ConsBasicPortfolioSolver.calc_EndOfPrdvP takes no branch when the flag
is false and produces no end-of-period marginal value at all. -/
theorem portfolio_no_joint_fallback (zeroBound : Bool) (pw vPnext : ℚ → ℚ)
    (D Γ Rfree : ℚ)
    (permX permP tranX tranP riskyX riskyP aNrm shareGrid : List ℚ) (a : ℚ) :
    portfolioCalcEndOfPrdvP false zeroBound pw vPnext D Γ Rfree permX permP
        tranX tranP riskyX riskyP aNrm shareGrid = none ∧
      riskyCalcEndOfPrdvP false pw vPnext D Γ permX permP tranX tranP riskyX
          riskyP a =
        calcEndOfPrdvP_joint pw vPnext D Γ permX permP tranX tranP riskyX
          riskyP a :=
  ⟨rfl, rfl⟩

/-- C10: for a solver that passed construction, so with artificial
constraint exactly 0, def_BoroCnst sets the minimum feasible cash to the
natural constraint floored at 0, which is never negative, and sets the
effective maximum MPC to 1 exactly when the natural constraint lies strictly
below the minimum feasible cash, provided the unconstrained maximum MPC is
not itself 1. -/
theorem def_BoroCnst_invariants (mNrmMinNext : ℚ) (tranX permX riskyX : List ℚ)
    (PermGroFac MPCmaxNow : ℚ) (hM : MPCmaxNow ≠ 1) :
    (def_BoroCnst mNrmMinNext tranX permX riskyX PermGroFac (some 0)
        MPCmaxNow).mNrmMinNow =
      max (def_BoroCnst mNrmMinNext tranX permX riskyX PermGroFac (some 0)
        MPCmaxNow).BoroCnstNat 0 ∧
    0 ≤ (def_BoroCnst mNrmMinNext tranX permX riskyX PermGroFac (some 0)
        MPCmaxNow).mNrmMinNow ∧
    ((def_BoroCnst mNrmMinNext tranX permX riskyX PermGroFac (some 0)
        MPCmaxNow).MPCmaxEff = 1 ↔
      (def_BoroCnst mNrmMinNext tranX permX riskyX PermGroFac (some 0)
          MPCmaxNow).BoroCnstNat <
        (def_BoroCnst mNrmMinNext tranX permX riskyX PermGroFac (some 0)
          MPCmaxNow).mNrmMinNow) :=
  ⟨rfl, le_max_right _ _, ite_eq_one_iff _ _ hM⟩

/-- C10 witness: the invariants at a concrete input with a negative natural
constraint. -/
theorem def_BoroCnst_invariants_w :
    ((1 : ℚ) / 2 ≠ 1) ∧
      ((def_BoroCnst 0 [1] [1] [2] 1 (some 0) (1 / 2)).mNrmMinNow =
        max (def_BoroCnst 0 [1] [1] [2] 1 (some 0) (1 / 2)).BoroCnstNat 0 ∧
      0 ≤ (def_BoroCnst 0 [1] [1] [2] 1 (some 0) (1 / 2)).mNrmMinNow ∧
      ((def_BoroCnst 0 [1] [1] [2] 1 (some 0) (1 / 2)).MPCmaxEff = 1 ↔
        (def_BoroCnst 0 [1] [1] [2] 1 (some 0) (1 / 2)).BoroCnstNat <
          (def_BoroCnst 0 [1] [1] [2] 1 (some 0) (1 / 2)).mNrmMinNow)) :=
  ⟨by norm_num, def_BoroCnst_invariants 0 [1] [1] [2] 1 (1 / 2) (by norm_num)⟩

/-- C3: under an independence-respecting joint distribution, the outer
product of the permanent, transitory and risky-return marginals as built by
combine_indep_dstns, calc_EndOfPrdvP via the three-stage factorized path
agrees at every asset point with the single joint-expectation path, exactly,
for every power transform and next-period marginal value function. -/
theorem calc_EndOfPrdvP_paths_agree (pw vPnext : ℚ → ℚ) (D Γ : ℚ)
    (permX permP tranX tranP riskyX riskyP : List ℚ)
    (_hperm : permX.length = permP.length)
    (htran : tranX.length = tranP.length)
    (hrisky : riskyX.length = riskyP.length) (a : ℚ) :
    riskyCalcEndOfPrdvP true pw vPnext D Γ permX permP tranX tranP riskyX
        riskyP a =
      riskyCalcEndOfPrdvP false pw vPnext D Γ permX permP tranX tranP riskyX
        riskyP a := by
  show calcEndOfPrdvP_indep pw vPnext D Γ permX permP tranX tranP riskyX
      riskyP a =
    calcEndOfPrdvP_joint pw vPnext D Γ permX permP tranX tranP riskyX riskyP a
  have hjoint : calcEndOfPrdvP_joint pw vPnext D Γ permX permP tranX tranP
      riskyX riskyP a =
      expectG permX permP (fun ψ => expectG tranX tranP (fun θ =>
        expectG riskyX riskyP
          (fun r => vP_next pw vPnext D Γ ((ψ, θ), r) a))) := by
    unfold calcEndOfPrdvP_joint
    rw [expect_prod (prodX permX tranX) (prodP permP tranP) riskyX riskyP
      hrisky, expect_prod permX permP tranX tranP htran]
  have hindep : calcEndOfPrdvP_indep pw vPnext D Γ permX permP tranX tranP
      riskyX riskyP a =
      expectG riskyX riskyP (fun r => expectG permX permP (fun ψ =>
        expectG tranX tranP (fun θ =>
          D * r * (pw (ψ * Γ) * vPnext (a * r / (ψ * Γ) + θ))))) := by
    unfold calcEndOfPrdvP_indep prePermShkvP preTranShkvP
    refine expect_congr _ _ _ _ (fun r _ => ?_)
    rw [← expect_const_mul]
    refine expect_congr _ _ _ _ (fun ψ _ => ?_)
    rw [← expect_const_mul, ← expect_const_mul]
  rw [hindep, hjoint]
  rw [expect_swap riskyX riskyP permX permP (fun r ψ => expectG tranX tranP
    (fun θ => D * r * (pw (ψ * Γ) * vPnext (a * r / (ψ * Γ) + θ))))]
  refine expect_congr _ _ _ _ (fun ψ _ => ?_)
  rw [expect_swap riskyX riskyP tranX tranP (fun r θ =>
    D * r * (pw (ψ * Γ) * vPnext (a * r / (ψ * Γ) + θ)))]
  refine expect_congr _ _ _ _ (fun θ _ => ?_)
  refine expect_congr _ _ _ _ (fun r _ => ?_)
  unfold vP_next
  ring

/-- C3 witness: the two paths coincide at a concrete input bundle with
concrete transform functions. -/
theorem calc_EndOfPrdvP_paths_agree_w :
    ([1, 2] : List ℚ).length = ([1 / 2, 1 / 2] : List ℚ).length ∧
      ([0, 1] : List ℚ).length = ([1 / 3, 2 / 3] : List ℚ).length ∧
      ([1, 3] : List ℚ).length = ([1 / 4, 3 / 4] : List ℚ).length ∧
      riskyCalcEndOfPrdvP true (fun x => x * x) (fun x => x + 1) (9 / 10) 1
          [1, 2] [1 / 2, 1 / 2] [0, 1] [1 / 3, 2 / 3] [1, 3] [1 / 4, 3 / 4] 2 =
        riskyCalcEndOfPrdvP false (fun x => x * x) (fun x => x + 1) (9 / 10) 1
          [1, 2] [1 / 2, 1 / 2] [0, 1] [1 / 3, 2 / 3] [1, 3] [1 / 4, 3 / 4] 2 :=
  ⟨rfl, rfl, rfl,
    calc_EndOfPrdvP_paths_agree (fun x => x * x) (fun x => x + 1) (9 / 10) 1
      [1, 2] [1 / 2, 1 / 2] [0, 1] [1 / 3, 2 / 3] [1, 3] [1 / 4, 3 / 4]
      rfl rfl rfl 2⟩

/-! ## Supporting lemmas for the EGM consumption function -/

theorem chain'_zipWith_add (a : List ℚ) :
    ∀ (c : List ℚ), a.length = c.length → List.Chain' (· < ·) a →
      List.Chain' (· ≤ ·) c →
      List.Chain' (· < ·) (List.zipWith (· + ·) a c) := by
  induction a with
  | nil => intro c _ _ _; simp
  | cons x xs ih =>
    intro c hlen hxa hc
    cases c with
    | nil => simp at hlen
    | cons y ys =>
      cases xs with
      | nil =>
        cases ys with
        | nil => simp
        | cons => simp at hlen
      | cons x2 xs2 =>
        cases ys with
        | nil => simp at hlen
        | cons y2 ys2 =>
          rw [List.zipWith_cons_cons, List.zipWith_cons_cons]
          refine List.chain'_cons.mpr ⟨?_, ?_⟩
          · exact add_lt_add_of_lt_of_le (List.chain'_cons.mp hxa).1
              (List.chain'_cons.mp hc).1
          · have hlen2 : (x2 :: xs2).length = (y2 :: ys2).length := by
              simp only [List.length_cons] at hlen ⊢
              omega
            exact ih (y2 :: ys2) hlen2 (List.chain'_cons.mp hxa).2
              (List.chain'_cons.mp hc).2

theorem chain'_zip_fst (a : List ℚ) :
    ∀ (c : List ℚ), List.Chain' (· < ·) a →
      List.Chain' (fun u v : ℚ × ℚ => u.1 < v.1) (a.zip c) := by
  induction a with
  | nil => intro c _; simp
  | cons x xs ih =>
    intro c hx
    cases c with
    | nil => simp
    | cons y ys =>
      cases xs with
      | nil => simp
      | cons x2 xs2 =>
        cases ys with
        | nil => simp
        | cons y2 ys2 =>
          rw [List.zip_cons_cons, List.zip_cons_cons]
          exact List.chain'_cons.mpr ⟨(List.chain'_cons.mp hx).1,
            ih (y2 :: ys2) (List.chain'_cons.mp hx).2⟩

theorem chain'_zip_snd (a : List ℚ) :
    ∀ (c : List ℚ), List.Chain' (· ≤ ·) c →
      List.Chain' (fun u v : ℚ × ℚ => u.2 ≤ v.2) (a.zip c) := by
  induction a with
  | nil => intro c _; simp
  | cons x xs ih =>
    intro c hc
    cases c with
    | nil => simp
    | cons y ys =>
      cases xs with
      | nil => simp
      | cons x2 xs2 =>
        cases ys with
        | nil => simp
        | cons y2 ys2 =>
          rw [List.zip_cons_cons, List.zip_cons_cons]
          exact List.chain'_cons.mpr ⟨(List.chain'_cons.mp hc).1,
            ih (y2 :: ys2) (List.chain'_cons.mp hc).2⟩

theorem getD_mem_self : ∀ (l : List ℚ) (i : ℕ), i < l.length → l.getD i 0 ∈ l
  | [], i, hi => absurd hi (by simp)
  | x :: xs, 0, _ => by simp
  | x :: xs, i + 1, hi => by
    have h : i < xs.length := by simpa using hi
    exact List.mem_cons_of_mem x (getD_mem_self xs i h)

theorem getD_zipWith_add : ∀ (a c : List ℚ) (i : ℕ), i < a.length →
    a.length = c.length →
    (List.zipWith (· + ·) a c).getD i 0 = a.getD i 0 + c.getD i 0
  | [], _, i, hi, _ => absurd hi (by simp)
  | x :: xs, c, i, hi, hlen => by
    cases c with
    | nil => simp at hlen
    | cons y ys =>
      cases i with
      | zero => rfl
      | succ j =>
        have hj : j < xs.length := by simpa using hi
        have hl : xs.length = ys.length := by
          simp only [List.length_cons] at hlen
          omega
        simpa using getD_zipWith_add xs ys j hj hl

theorem zip_getD_mem : ∀ (a c : List ℚ) (i : ℕ), i < a.length →
    a.length = c.length → (a.getD i 0, c.getD i 0) ∈ a.zip c
  | [], _, i, hi, _ => absurd hi (by simp)
  | x :: xs, c, i, hi, hlen => by
    cases c with
    | nil => simp at hlen
    | cons y ys =>
      cases i with
      | zero => simp
      | succ j =>
        have hj : j < xs.length := by simpa using hi
        have hl : xs.length = ys.length := by
          simp only [List.length_cons] at hlen
          omega
        rw [List.zip_cons_cons]
        exact List.mem_cons_of_mem _ (zip_getD_mem xs ys j hj hl)

theorem cFunc_pts_chain_fst (mNrmMin : ℚ) (aNrm cNrm : List ℚ)
    (hlen : aNrm.length = cNrm.length) (ha : List.Chain' (· < ·) aNrm)
    (hcmono : List.Chain' (· ≤ ·) cNrm) (hcpos : ∀ c ∈ cNrm, 0 < c)
    (hmin : ∀ a ∈ aNrm, mNrmMin ≤ a) :
    List.Chain' (fun u v : ℚ × ℚ => u.1 < v.1)
      ((mNrmMin, 0) :: (mNrmGrid aNrm cNrm).zip cNrm) := by
  have hm := chain'_zipWith_add aNrm cNrm hlen ha hcmono
  refine List.chain'_cons'.mpr ⟨?_, chain'_zip_fst (mNrmGrid aNrm cNrm) cNrm hm⟩
  intro p hp
  cases aNrm with
  | nil => simp [mNrmGrid] at hp
  | cons a0 as =>
    cases cNrm with
    | nil => simp [mNrmGrid] at hp
    | cons c0 cs =>
      simp only [mNrmGrid, List.zipWith_cons_cons, List.zip_cons_cons,
        List.head?_cons, Option.mem_def, Option.some.injEq] at hp
      have h1 : mNrmMin ≤ a0 := hmin a0 (by simp)
      have h2 : 0 < c0 := hcpos c0 (by simp)
      rw [← hp]
      show mNrmMin < a0 + c0
      linarith

theorem cFunc_pts_chain_snd (mNrmMin : ℚ) (aNrm cNrm : List ℚ)
    (hcmono : List.Chain' (· ≤ ·) cNrm) (hcpos : ∀ c ∈ cNrm, 0 < c) :
    List.Chain' (fun u v : ℚ × ℚ => u.2 ≤ v.2)
      ((mNrmMin, 0) :: (mNrmGrid aNrm cNrm).zip cNrm) := by
  refine List.chain'_cons'.mpr
    ⟨?_, chain'_zip_snd (mNrmGrid aNrm cNrm) cNrm hcmono⟩
  intro p hp
  cases aNrm with
  | nil => simp [mNrmGrid] at hp
  | cons a0 as =>
    cases cNrm with
    | nil => simp [mNrmGrid] at hp
    | cons c0 cs =>
      simp only [mNrmGrid, List.zipWith_cons_cons, List.zip_cons_cons,
        List.head?_cons, Option.mem_def, Option.some.injEq] at hp
      have h2 : 0 < c0 := hcpos c0 (by simp)
      rw [← hp]
      show (0 : ℚ) ≤ c0
      linarith

/-- C4: EGM round trip: at every index of the end-of-period asset grid, the
endogenous cash point is assets plus consumption by the budget identity, and
cash minus the period consumption function evaluated there reproduces the
original asset point exactly. The hypotheses state validity of the inputs: a
strictly increasing asset grid at or above the minimum feasible cash, and
positive nondecreasing consumption values, as delivered by inverting
marginal utility along a positive decreasing end-of-period marginal
value. -/
theorem egm_round_trip (mNrmMin : ℚ) (aNrm cNrm : List ℚ)
    (hlen : aNrm.length = cNrm.length) (ha : List.Chain' (· < ·) aNrm)
    (hcmono : List.Chain' (· ≤ ·) cNrm) (hcpos : ∀ c ∈ cNrm, 0 < c)
    (hmin : ∀ a ∈ aNrm, mNrmMin ≤ a) (i : ℕ) (hi : i < aNrm.length) :
    (mNrmGrid aNrm cNrm).getD i 0 -
        cFuncNow mNrmMin aNrm cNrm ((mNrmGrid aNrm cNrm).getD i 0) =
      aNrm.getD i 0 := by
  have hchain := cFunc_pts_chain_fst mNrmMin aNrm cNrm hlen ha hcmono hcpos hmin
  have hmemzip : ((mNrmGrid aNrm cNrm).getD i 0, cNrm.getD i 0) ∈
      (mNrmGrid aNrm cNrm).zip cNrm := by
    apply zip_getD_mem
    · simpa [mNrmGrid, hlen] using hi
    · simp [mNrmGrid, hlen]
  have hval := linInterp_node _ hchain _ (List.mem_cons_of_mem (mNrmMin, 0) hmemzip)
  have hgd : (mNrmGrid aNrm cNrm).getD i 0 = aNrm.getD i 0 + cNrm.getD i 0 :=
    getD_zipWith_add aNrm cNrm i hi hlen
  have hai : mNrmMin ≤ aNrm.getD i 0 := hmin _ (getD_mem_self aNrm i hi)
  unfold cFuncNow
  rw [hval, hgd]
  have hminle : min (cNrm.getD i 0)
      (aNrm.getD i 0 + cNrm.getD i 0 - mNrmMin) = cNrm.getD i 0 :=
    min_eq_left (by linarith)
  rw [hminle]
  ring

/-- C4 witness: the round trip at a concrete grid. -/
theorem egm_round_trip_w :
    (0 : ℕ) < ([1, 2] : List ℚ).length ∧
      (mNrmGrid [1, 2] [1, 2]).getD 0 0 -
          cFuncNow 0 [1, 2] [1, 2] ((mNrmGrid [1, 2] [1, 2]).getD 0 0) =
        ([1, 2] : List ℚ).getD 0 0 :=
  ⟨by decide, egm_round_trip 0 [1, 2] [1, 2] rfl
    (by norm_num [List.chain'_cons, List.chain'_singleton])
    (by norm_num [List.chain'_cons, List.chain'_singleton])
    (by decide) (by decide) 0 (by decide)⟩

/-- C5: the period consumption function is non-decreasing in cash-on-hand
and evaluates to exactly 0 at the minimum feasible cash level. The
hypotheses state validity of the inputs as in the round-trip theorem. -/
theorem cFunc_monotone_zero_at_min (mNrmMin : ℚ) (aNrm cNrm : List ℚ)
    (hlen : aNrm.length = cNrm.length) (ha : List.Chain' (· < ·) aNrm)
    (hcmono : List.Chain' (· ≤ ·) cNrm) (hcpos : ∀ c ∈ cNrm, 0 < c)
    (hmin : ∀ a ∈ aNrm, mNrmMin ≤ a) :
    (∀ u v : ℚ, u ≤ v →
      cFuncNow mNrmMin aNrm cNrm u ≤ cFuncNow mNrmMin aNrm cNrm v) ∧
      cFuncNow mNrmMin aNrm cNrm mNrmMin = 0 := by
  have hfst := cFunc_pts_chain_fst mNrmMin aNrm cNrm hlen ha hcmono hcpos hmin
  have hsnd := cFunc_pts_chain_snd mNrmMin aNrm cNrm hcmono hcpos
  constructor
  · intro u v huv
    unfold cFuncNow
    exact min_le_min (linInterp_mono _ hfst hsnd u v huv) (by linarith)
  · have h0 := linInterp_head (mNrmMin, 0)
      ((mNrmGrid aNrm cNrm).zip cNrm) hfst
    unfold cFuncNow
    rw [show ((mNrmMin, 0) : ℚ × ℚ).1 = mNrmMin from rfl] at h0
    rw [h0]
    simp

/-- C5 witness: the consumption function at a concrete grid is 0 at the
minimum cash level and non-decreasing between two sample points. -/
theorem cFunc_monotone_zero_at_min_w :
    cFuncNow 0 [1, 2] [1, 2] 0 = 0 ∧
      cFuncNow 0 [1, 2] [1, 2] (1 / 2) ≤ cFuncNow 0 [1, 2] [1, 2] 1 :=
  ⟨(cFunc_monotone_zero_at_min 0 [1, 2] [1, 2] rfl
      (by norm_num [List.chain'_cons, List.chain'_singleton])
      (by norm_num [List.chain'_cons, List.chain'_singleton])
      (by decide) (by decide)).2,
    (cFunc_monotone_zero_at_min 0 [1, 2] [1, 2] rfl
      (by norm_num [List.chain'_cons, List.chain'_singleton])
      (by norm_num [List.chain'_cons, List.chain'_singleton])
      (by decide) (by decide)).1 (1 / 2) 1 (by norm_num)⟩

end HARKRisky
